import Mathlib

/- Verification development for the commit traversal and diff-hunk construction
engine of the gitlogue repository (src/git.rs). The Rust source is shallowly
embedded: pure functions are translated to Lean functions, interior-mutable
selector state becomes explicit state passing, Rust Result becomes Except, and
machine integers become Nat. External collaborators (the gix repository handle,
the imara-diff line-diff primitive, the globset matcher, std UTF-8 decoding)
are not part of src/; where the claims depend on them they are modelled from
the specification, with a doc comment saying so. -/

/- Character-list string utilities. Lean core String functions such as splitOn
are defined by well-founded recursion and do not reduce in the kernel, so the
embedding uses these structurally recursive equivalents of the Rust str
operations (split, contains, ends_with, rsplit). -/

/-- Does the second list start with the first list? Equivalent of Rust
str::starts_with on character lists. -/
def startsWithList [DecidableEq α] : List α → List α → Bool
  | [], _ => true
  | _ :: _, [] => false
  | p :: ps, a :: l => if p = a then startsWithList ps l else false

/-- Fuelled worker for splitting a character list on a non-empty separator,
left to right, non-overlapping, as Rust str::split does. The accumulator holds
the current segment reversed. Fuel at least the list length plus one is enough
because every step consumes at least one character. -/
def splitOnCharsAux (sep : List Char) : Nat → List Char → List Char → List (List Char)
  | 0, l, cur => [cur.reverse ++ l]
  | _ + 1, [], cur => [cur.reverse]
  | fuel + 1, c :: rest, cur =>
    if startsWithList sep (c :: rest) then
      cur.reverse :: splitOnCharsAux sep fuel ((c :: rest).drop sep.length) []
    else
      splitOnCharsAux sep fuel rest (c :: cur)

/-- Equivalent of Rust str::split collected to a list (for a non-empty
separator pattern). -/
def strSplitOn (s sep : String) : List String :=
  (splitOnCharsAux sep.data (s.data.length + 1) s.data []).map (fun l => String.mk l)

/-- Equivalent of Rust str::contains for a non-empty substring pattern: the
split has more than one part exactly when the pattern occurs. -/
def containsSubstr (s pat : String) : Bool :=
  (strSplitOn s pat).length != 1

/-- Equivalent of Rust str::ends_with. -/
def strEndsWith (s suffix : String) : Bool :=
  startsWithList suffix.data.reverse s.data.reverse

/-- Modelled from the spec: the line tokenizer of the external diff primitive.
It cuts the text at every newline; a trailing line without a terminator is
still a line; the line contents carry no trailing newline. The accumulator
holds the current line reversed. -/
def splitLinesAux : List Char → List Char → List (List Char)
  | cur, [] => if cur.isEmpty then [] else [cur.reverse]
  | cur, c :: rest =>
    if c = '\n' then cur.reverse :: splitLinesAux [] rest
    else splitLinesAux (c :: cur) rest

/-- Modelled from the spec: tokenize a text into its list of lines. -/
def tokenizeLines (s : String) : List String :=
  (splitLinesAux [] s.data).map (fun l => String.mk l)

/-- The Unicode replacement character used for lossy decoding. -/
def replacementChar : Char := Char.ofNat 0xFFFD

/-- Is the byte a UTF-8 continuation byte? -/
def isContByte (b : Nat) : Bool := 0x80 ≤ b && b < 0xC0

/-- Modelled from the spec: UTF-8 decoding with lossy replacement of invalid
sequences (the external std String::from_utf8_lossy). An invalid lead byte or
an incomplete sequence becomes the replacement character and decoding resumes
at the next byte. Fuelled for structural recursion; fuel at least the byte
count is enough because every step consumes at least one byte. -/
def utf8DecodeLossyF : Nat → List Nat → List Char
  | _, [] => []
  | 0, _ :: _ => []
  | fuel + 1, b :: rest =>
    if b < 0x80 then Char.ofNat b :: utf8DecodeLossyF fuel rest
    else if b < 0xC2 then replacementChar :: utf8DecodeLossyF fuel rest
    else if b < 0xE0 then
      match rest with
      | [] => [replacementChar]
      | b1 :: rest1 =>
        if isContByte b1 then
          Char.ofNat ((b - 0xC0) * 0x40 + (b1 - 0x80)) :: utf8DecodeLossyF fuel rest1
        else replacementChar :: utf8DecodeLossyF fuel rest
    else if b < 0xF0 then
      match rest with
      | b1 :: b2 :: rest2 =>
        if (if b = 0xE0 then 0xA0 ≤ b1 && b1 < 0xC0
            else if b = 0xED then 0x80 ≤ b1 && b1 < 0xA0
            else isContByte b1) && isContByte b2 then
          Char.ofNat ((b - 0xE0) * 0x1000 + (b1 - 0x80) * 0x40 + (b2 - 0x80)) ::
            utf8DecodeLossyF fuel rest2
        else replacementChar :: utf8DecodeLossyF fuel rest
      | _ => [replacementChar]
    else if b < 0xF5 then
      match rest with
      | b1 :: b2 :: b3 :: rest3 =>
        if (if b = 0xF0 then 0x90 ≤ b1 && b1 < 0xC0
            else if b = 0xF4 then 0x80 ≤ b1 && b1 < 0x90
            else isContByte b1) && isContByte b2 && isContByte b3 then
          Char.ofNat ((b - 0xF0) * 0x40000 + (b1 - 0x80) * 0x1000 +
              (b2 - 0x80) * 0x40 + (b3 - 0x80)) :: utf8DecodeLossyF fuel rest3
        else replacementChar :: utf8DecodeLossyF fuel rest
      | _ => [replacementChar]
    else replacementChar :: utf8DecodeLossyF fuel rest

/-- Modelled from the spec: byte content decoded as UTF-8 with lossy
replacement of invalid sequences. -/
def fromUtf8Lossy (data : List Nat) : String :=
  String.mk (utf8DecodeLossyF data.length data)

/- Constants of src/git.rs. -/

/-- Maximum blob size to read (500KB), constant MAX_BLOB_SIZE of git.rs. -/
def MAX_BLOB_SIZE : Nat := 500 * 1024

/-- Maximum number of changed lines per file to animate, constant
MAX_CHANGE_LINES of git.rs. -/
def MAX_CHANGE_LINES : Nat := 2000

/-- Files to exclude from diff animation, constant EXCLUDED_FILES of git.rs. -/
def EXCLUDED_FILES : List String :=
  ["yarn.lock", "package-lock.json", "pnpm-lock.yaml", "bun.lock", "bun.lockb",
   "Cargo.lock", "Gemfile.lock", "poetry.lock", "Pipfile.lock", "composer.lock",
   "go.sum", "Package.resolved", "pubspec.lock", "packages.lock.json",
   "project.assets.json", "mix.lock", "gradle.lockfile",
   "buildscript-gradle.lockfile", "build.sbt.lock", "MODULE.bazel.lock"]

/-- File patterns to exclude from diff animation, constant EXCLUDED_PATTERNS
of git.rs. -/
def EXCLUDED_PATTERNS : List String :=
  [".min.js", ".min.css", ".bundle.js", ".bundle.css", ".js.map", ".css.map",
   ".d.ts.map", ".snap", "__snapshots__"]

/-- Embedding of should_exclude_file of git.rs. The process-wide USER_PATTERNS
glob set (external globset state, write-once) is passed explicitly as an
optional match function; None models the uninitialized OnceLock. -/
def should_exclude_file (userPatterns : Option (String → Bool)) (path : String) : Bool :=
  if (match userPatterns with | some pats => pats path | none => false) then true
  else
    let filename := ((strSplitOn path "/").getLast?).getD path
    if EXCLUDED_FILES.contains filename then true
    else EXCLUDED_PATTERNS.any (fun pat => strEndsWith filename pat || containsSubstr path pat)

/- Data model of git.rs. -/

/-- Embedding of enum FileStatus of git.rs. -/
inductive FileStatus
  | Added
  | Deleted
  | Modified
  | Renamed
  | Copied
  deriving DecidableEq, Repr

/-- Embedding of enum LineChangeType of git.rs. -/
inductive LineChangeType
  | Addition
  | Deletion
  deriving DecidableEq, Repr

/-- Embedding of struct LineChange of git.rs. -/
structure LineChange where
  change_type : LineChangeType
  content : String
  old_line_no : Option Nat
  new_line_no : Option Nat
  deriving DecidableEq, Repr

/-- Embedding of struct DiffHunk of git.rs. -/
structure DiffHunk where
  old_start : Nat
  old_lines : Nat
  new_start : Nat
  new_lines : Nat
  lines : List LineChange
  deriving DecidableEq, Repr

/-- Embedding of struct FileChange of git.rs. -/
structure FileChange where
  path : String
  old_path : Option String
  status : FileStatus
  is_binary : Bool
  is_excluded : Bool
  exclusion_reason : Option String
  old_content : Option String
  new_content : Option String
  hunks : List DiffHunk
  diff : String
  deriving DecidableEq, Repr

/- The line diff primitive. The Rust code calls the external
gix::diff::blob::diff driver (imara-diff), which reports each contiguous run
of changed lines to the Sink as a pair of before and after index ranges. That
driver is not part of src/, so it is modelled from the spec: a standard
minimal-edit-script line diff for the Myers strategy and an
anchor-on-rarest-common-line divide and conquer for the Histogram strategy,
both reporting maximal contiguous change regions in order. -/

/-- One step of an edit script: keep one line of both sides, delete one line
of the old side, or add one line of the new side. -/
inductive DiffOp
  | keep
  | del
  | add
  deriving DecidableEq, Repr

/-- Modelled from the spec: fuelled longest-common-subsequence length. Fuel at
least the sum of the list lengths is enough. -/
def lcsLenF [DecidableEq α] : Nat → List α → List α → Nat
  | 0, _, _ => 0
  | _ + 1, [], _ => 0
  | _ + 1, _ :: _, [] => 0
  | fuel + 1, x :: xs, y :: ys =>
    if x = y then lcsLenF fuel xs ys + 1
    else max (lcsLenF fuel xs (y :: ys)) (lcsLenF fuel (x :: xs) ys)

/-- Longest-common-subsequence length. -/
def lcsLen [DecidableEq α] (a b : List α) : Nat :=
  lcsLenF (a.length + b.length) a b

/-- Modelled from the spec: a standard minimal edit script (the Myers
strategy), produced greedily from longest-common-subsequence lengths; on ties
a deletion is emitted first, matching common diff conventions. Fuelled for
structural recursion; fuel at least the sum of the lengths is enough. -/
def diffOpsF [DecidableEq α] : Nat → List α → List α → List DiffOp
  | 0, _, _ => []
  | _ + 1, [], ys => ys.map (fun _ => DiffOp.add)
  | _ + 1, x :: xs, [] => (x :: xs).map (fun _ => DiffOp.del)
  | fuel + 1, x :: xs, y :: ys =>
    if x = y then DiffOp.keep :: diffOpsF fuel xs ys
    else if lcsLen (x :: xs) ys ≤ lcsLen xs (y :: ys) then
      DiffOp.del :: diffOpsF fuel xs (y :: ys)
    else DiffOp.add :: diffOpsF fuel (x :: xs) ys

/-- Minimal edit script between two token lists. -/
def diffOps [DecidableEq α] (a b : List α) : List DiffOp :=
  diffOpsF (a.length + b.length) a b

/-- A contiguous change region as handed to the Sink by the external diff
driver: a half-open before index range and a half-open after index range. -/
structure Region where
  beforeStart : Nat
  beforeEnd : Nat
  afterStart : Nat
  afterEnd : Nat
  deriving DecidableEq, Repr

/-- A pending region flushed to a list. -/
def flushRegion : Option Region → List Region
  | none => []
  | some r => [r]

/-- Modelled from the spec: group an edit script into maximal contiguous
change regions, tracking the current before position, after position and the
open region. -/
def changeRegions : List DiffOp → Nat → Nat → Option Region → List Region
  | [], _, _, cur => flushRegion cur
  | DiffOp.keep :: ops, i, j, cur => flushRegion cur ++ changeRegions ops (i + 1) (j + 1) none
  | DiffOp.del :: ops, i, j, cur =>
    match cur with
    | none => changeRegions ops (i + 1) j (some ⟨i, i + 1, j, j⟩)
    | some r => changeRegions ops (i + 1) j (some ⟨r.beforeStart, r.beforeEnd + 1, r.afterStart, r.afterEnd⟩)
  | DiffOp.add :: ops, i, j, cur =>
    match cur with
    | none => changeRegions ops i (j + 1) (some ⟨i, i, j, j + 1⟩)
    | some r => changeRegions ops i (j + 1) (some ⟨r.beforeStart, r.beforeEnd, r.afterStart, r.afterEnd + 1⟩)

/-- Index of the first occurrence of an element in a list (list length when
absent). -/
def firstIdx [DecidableEq α] (x : α) : List α → Nat
  | [] => 0
  | y :: l => if y = x then 0 else firstIdx x l + 1

/-- The candidate with the lowest occurrence count in the old side, first one
on a tie. -/
def pickLowest [DecidableEq α] (a : List α) (cands : List α) : Option α :=
  cands.foldl
    (fun best x =>
      match best with
      | none => some x
      | some y => if a.count x < a.count y then some x else some y)
    none

/-- Modelled from the spec: the Histogram strategy. Split both sides at the
common line whose occurrence count in the old side is lowest, recurse on the
two halves, and emit a single whole-region change when no line is common.
Positions ia and ib are the absolute offsets of the processed slices. Fuelled;
fuel above the sum of the list lengths is enough because every recursive call
strictly shrinks that sum. -/
def histRegionsF [DecidableEq α] : Nat → List α → List α → Nat → Nat → List Region
  | 0, _, _, _, _ => []
  | _ + 1, [], [], _, _ => []
  | _ + 1, [], b, ia, ib => [⟨ia, ia, ib, ib + b.length⟩]
  | _ + 1, a, [], ia, ib => [⟨ia, ia + a.length, ib, ib⟩]
  | fuel + 1, a, b, ia, ib =>
    match pickLowest a (a.filter (fun x => b.contains x)) with
    | none => [⟨ia, ia + a.length, ib, ib + b.length⟩]
    | some t =>
      let i := firstIdx t a
      let j := firstIdx t b
      histRegionsF fuel (a.take i) (b.take j) ia ib ++
        histRegionsF fuel (a.drop (i + 1)) (b.drop (j + 1)) (ia + i + 1) (ib + j + 1)

/-- Embedding of gix::diff::blob::Algorithm restricted to the two variants the
spec names. -/
inductive Algorithm
  | Myers
  | Histogram
  deriving DecidableEq, Repr

/-- Embedding of struct DiffHunkCollector of git.rs (the Sink state): finished
hunks, the open hunk, and the running old and new line counters. -/
structure CollectorState where
  hunks : List DiffHunk
  current : Option DiffHunk
  old_line_no : Nat
  new_line_no : Nat
  deriving Repr

/-- Embedding of DiffHunkCollector::finish_current_hunk. -/
def finish_current_hunk (st : CollectorState) : CollectorState :=
  match st.current with
  | some h => { st with hunks := st.hunks ++ [h], current := none }
  | none => st

/-- Is the line a Deletion? -/
def isDeletionLine (l : LineChange) : Bool :=
  match l.change_type with
  | LineChangeType.Deletion => true
  | LineChangeType.Addition => false

/-- Is the line an Addition? -/
def isAdditionLine (l : LineChange) : Bool :=
  match l.change_type with
  | LineChangeType.Addition => true
  | LineChangeType.Deletion => false

/-- Embedding of the per-index loops of DiffHunkCollector::process_change: for
every index of the half-open range, look the token up (skipping indices out of
bounds, as the Option-returning get does) and number the produced lines
sequentially from the start line. -/
def rangeLines (toks : List String) (s e startNo : Nat) (kind : LineChangeType) : List LineChange :=
  (((List.range' s (e - s)).filterMap (fun i => toks[i]?)).enum).map
    (fun p =>
      match kind with
      | LineChangeType.Deletion => ⟨kind, p.2, some (startNo + p.1), none⟩
      | LineChangeType.Addition => ⟨kind, p.2, none, some (startNo + p.1)⟩)

/-- The hunk DiffHunkCollector::process_change builds for one change region:
one-based starts, range widths as line counts, deletions before additions. -/
def region_hunk (before after : List String) (r : Region) : DiffHunk :=
  let old_start := r.beforeStart + 1
  let new_start := r.afterStart + 1
  let old_lines := r.beforeEnd - r.beforeStart
  let new_lines := r.afterEnd - r.afterStart
  let delLines := rangeLines before r.beforeStart r.beforeEnd old_start LineChangeType.Deletion
  let addLines := rangeLines after r.afterStart r.afterEnd new_start LineChangeType.Addition
  ⟨old_start, old_lines, new_start, new_lines, delLines ++ addLines⟩

/-- Embedding of DiffHunkCollector::process_change: finish the previous hunk,
build the hunk of this region and leave it open, and advance the line
counters past the processed lines. -/
def process_change (before after : List String) (st : CollectorState) (r : Region) : CollectorState :=
  let st1 := finish_current_hunk st
  let h := region_hunk before after r
  { hunks := st1.hunks
    current := some h
    old_line_no := r.beforeStart + 1 + (h.lines.filter isDeletionLine).length
    new_line_no := r.afterStart + 1 + (h.lines.filter isAdditionLine).length }

/-- The collector run over the regions the diff driver reports, then
finished: embedding of gix::diff::blob::diff with the DiffHunkCollector sink. -/
def collector_run (before after : List String) (regions : List Region) : List DiffHunk :=
  (finish_current_hunk (regions.foldl (process_change before after) ⟨[], none, 1, 1⟩)).hunks

/-- Embedding of GitRepository::generate_hunks of git.rs: absent text is the
empty string, both texts are tokenized into lines, the configured strategy
produces the change regions, and the collector materializes them into hunks. -/
def generate_hunks (old_content new_content : Option String) (algo : Algorithm) : List DiffHunk :=
  let old_str := old_content.getD ""
  let new_str := new_content.getD ""
  let before := tokenizeLines old_str
  let after := tokenizeLines new_str
  let regions :=
    match algo with
    | Algorithm.Myers => changeRegions (diffOps before after) 0 0 none
    | Algorithm.Histogram => histRegionsF (before.length + after.length + 1) before after 0 0
  collector_run before after regions

/- Repository model. The gix Repository handle is an external collaborator:
revision resolution, history walks, commit lookup and blob lookup are modelled
as given finite data, and the functions of git.rs are embedded over them. -/

/-- An object identifier (a gix ObjectId), modelled as Nat. -/
abbrev ObjectId := Nat

/-- The data of a commit the engine consults: its parent identifiers. -/
structure CommitInfo where
  parents : List ObjectId
  deriving DecidableEq, Repr

/-- The external repository handle: revision resolution, HEAD, newest-first
inclusive ancestor walks, commit lookup, blob lookup and the configured diff
algorithm. -/
structure RepoModel where
  resolve : String → Option ObjectId
  headId : Option ObjectId
  revWalk : ObjectId → List ObjectId
  findCommit : ObjectId → Option CommitInfo
  blobs : ObjectId → Option (List Nat)
  diffAlgorithm : Algorithm

/-- Embedding of GitRepository::is_blob_binary of git.rs: an unresolvable blob
is not binary; a resolvable one is binary when it is oversized or holds a NUL
byte. -/
def is_blob_binary (repo : RepoModel) (id : ObjectId) : Bool :=
  match repo.blobs id with
  | some data => decide (data.length > MAX_BLOB_SIZE) || data.contains 0
  | none => false

/-- Embedding of GitRepository::get_blob_content of git.rs: error when the
blob cannot be resolved; none when it is oversized or holds a NUL byte;
otherwise the lossy UTF-8 decoding. -/
def get_blob_content (repo : RepoModel) (id : ObjectId) : Except String (Option String) :=
  match repo.blobs id with
  | none => Except.error "blob not found"
  | some data =>
    if decide (data.length > MAX_BLOB_SIZE) || data.contains 0 then Except.ok none
    else Except.ok (some (fromUtf8Lossy data))

/-- Embedding of gix::object::tree::diff::Change restricted to the fields
extract_changes reads. -/
inductive ChangeKind
  | Addition (id : ObjectId)
  | Deletion (id : ObjectId)
  | Modification (previous_id : ObjectId) (id : ObjectId)
  | Rewrite (source_location : String) (source_id : ObjectId) (id : ObjectId) (copy : Bool)
  deriving DecidableEq, Repr

/-- One change reported by the external tree diff: its location, whether the
entry mode is a tree, and its kind. -/
structure ChangeEntry where
  location : String
  is_tree : Bool
  kind : ChangeKind
  deriving DecidableEq, Repr

/-- Embedding of FileStatus::from_change of git.rs. -/
def status_from_change (c : ChangeKind) : FileStatus :=
  match c with
  | ChangeKind.Addition _ => FileStatus.Added
  | ChangeKind.Deletion _ => FileStatus.Deleted
  | ChangeKind.Modification _ _ => FileStatus.Modified
  | ChangeKind.Rewrite _ _ _ false => FileStatus.Renamed
  | ChangeKind.Rewrite _ _ _ true => FileStatus.Copied

/-- The FileChange the for_each_to_obtain_tree closure of
GitRepository::extract_changes of git.rs builds for one non-tree entry:
classify the status, resolve blob ids and the binary flag per change kind,
read both contents, build hunks unless binary, count the changed lines, and
record the exclusion flag and reason (the policy reason first, else the
changed-line ceiling reason, else none). -/
def change_record (repo : RepoModel) (userPatterns : Option (String → Bool))
    (change : ChangeEntry) : FileChange :=
  let path := change.location
  let status := status_from_change change.kind
  let old_path : Option String :=
    match change.kind with
    | ChangeKind.Rewrite source_location _ _ _ => some source_location
    | _ => none
  let ids : Option ObjectId × Option ObjectId × Bool :=
    match change.kind with
    | ChangeKind.Addition id => (none, some id, is_blob_binary repo id)
    | ChangeKind.Deletion id => (some id, none, is_blob_binary repo id)
    | ChangeKind.Modification source_id id =>
      (some source_id, some id, is_blob_binary repo source_id || is_blob_binary repo id)
    | ChangeKind.Rewrite _ source_id id _ =>
      (some source_id, some id, is_blob_binary repo source_id || is_blob_binary repo id)
  let old_id := ids.1
  let new_id := ids.2.1
  let is_binary := ids.2.2
  let old_content := old_id.bind (fun id => ((get_blob_content repo id).toOption).join)
  let new_content := new_id.bind (fun id => ((get_blob_content repo id).toOption).join)
  let hunks := if !is_binary then generate_hunks old_content new_content repo.diffAlgorithm else []
  let total_changed_lines := (hunks.map (fun h => h.lines.length)).sum
  let excl : Bool × Option String :=
    if should_exclude_file userPatterns path then (true, some "lock/generated file")
    else if total_changed_lines > MAX_CHANGE_LINES then
      (true, some ("too many changes (" ++ toString total_changed_lines ++ " lines)"))
    else (false, none)
  { path := path, old_path := old_path, status := status,
    is_binary := is_binary, is_excluded := excl.1, exclusion_reason := excl.2,
    old_content := old_content, new_content := new_content,
    hunks := hunks, diff := "" }

/-- Embedding of the body of the for_each_to_obtain_tree closure of
GitRepository::extract_changes of git.rs: tree entries are skipped, any other
entry pushes its record. -/
def extract_change_step (repo : RepoModel) (userPatterns : Option (String → Bool))
    (changes : List FileChange) (change : ChangeEntry) : List FileChange :=
  if change.is_tree then changes
  else changes ++ [change_record repo userPatterns change]

/-- Embedding of GitRepository::extract_changes of git.rs over the list of
changes the external tree diff reports. -/
def extract_changes (repo : RepoModel) (userPatterns : Option (String → Bool))
    (entries : List ChangeEntry) : List FileChange :=
  entries.foldl (extract_change_step repo userPatterns) []

/- The commit selector. populate_cache performs an external history walk; the
claims quantify over the populated candidate list, so the state carries it
directly, together with the shared cursor. Sequential selection stops at the
chosen identifier; the subsequent metadata extraction is an external
repository operation. -/

/-- The populated cache-playback state of GitRepository: commit_cache and
commit_index. -/
structure GitState where
  commit_cache : List ObjectId
  commit_index : Nat
  deriving DecidableEq, Repr

/-- Embedding of GitRepository::next_asc_commit of git.rs: ascending playback
reads the cache from the tail backward and advances the shared cursor. -/
def next_asc_commit (s : GitState) : Except String (ObjectId × GitState) :=
  let candidates := s.commit_cache
  if candidates.isEmpty then Except.error "No non-merge commits found in repository"
  else if s.commit_index ≥ candidates.length then Except.error "All commits have been played"
  else
    let asc_index := candidates.length - 1 - s.commit_index
    match candidates[asc_index]? with
    | some oid => Except.ok (oid, ⟨candidates, s.commit_index + 1⟩)
    | none => Except.error "Failed to select commit"

/-- Embedding of GitRepository::next_desc_commit of git.rs: descending
playback reads the cache from the head forward and advances the shared
cursor. -/
def next_desc_commit (s : GitState) : Except String (ObjectId × GitState) :=
  let candidates := s.commit_cache
  if candidates.isEmpty then Except.error "No non-merge commits found in repository"
  else if s.commit_index ≥ candidates.length then Except.error "All commits have been played"
  else
    match candidates[s.commit_index]? with
    | some oid => Except.ok (oid, ⟨candidates, s.commit_index + 1⟩)
    | none => Except.error "Failed to select commit"

/-- Ascending playback run to exhaustion (fuelled; fuel bounds the number of
successful selections). -/
def run_asc : Nat → GitState → List ObjectId
  | 0, _ => []
  | fuel + 1, s =>
    match next_asc_commit s with
    | Except.ok (oid, s1) => oid :: run_asc fuel s1
    | Except.error _ => []

/-- Descending playback run to exhaustion (fuelled). -/
def run_desc : Nat → GitState → List ObjectId
  | 0, _ => []
  | fuel + 1, s =>
    match next_desc_commit s with
    | Except.ok (oid, s1) => oid :: run_desc fuel s1
    | Except.error _ => []

/-- The range-playback state of GitRepository: commit_range and commit_index. -/
structure RangeState where
  commit_range : Option (List ObjectId)
  commit_index : Nat
  deriving DecidableEq, Repr

/-- Embedding of GitRepository::next_range_commit_asc of git.rs. -/
def next_range_commit_asc (s : RangeState) : Except String (ObjectId × RangeState) :=
  match s.commit_range with
  | none => Except.error "Commit range not set"
  | some commits =>
    if commits.isEmpty then Except.error "No commits in range"
    else if s.commit_index ≥ commits.length then
      Except.error "All commits in range have been played"
    else
      match commits[s.commit_index]? with
      | some oid => Except.ok (oid, ⟨some commits, s.commit_index + 1⟩)
      | none => Except.error "Failed to select commit"

/-- Embedding of GitRepository::next_range_commit_desc of git.rs. -/
def next_range_commit_desc (s : RangeState) : Except String (ObjectId × RangeState) :=
  match s.commit_range with
  | none => Except.error "Commit range not set"
  | some commits =>
    if commits.isEmpty then Except.error "No commits in range"
    else if s.commit_index ≥ commits.length then
      Except.error "All commits in range have been played"
    else
      let desc_index := commits.length - 1 - s.commit_index
      match commits[desc_index]? with
      | some oid => Except.ok (oid, ⟨some commits, s.commit_index + 1⟩)
      | none => Except.error "Failed to select commit"

/- The range parser. -/

/-- The resolution of the left side of a range expression: empty means no
lower bound, otherwise revision resolution must succeed. -/
def resolve_start (repo : RepoModel) (p : String) : Except String (Option ObjectId) :=
  if p = "" then Except.ok none
  else
    match repo.resolve p with
    | some oid => Except.ok (some oid)
    | none => Except.error "Failed to resolve revision"

/-- The resolution of the right side of a range expression: empty means HEAD. -/
def resolve_end (repo : RepoModel) (p : String) : Except String ObjectId :=
  if p = "" then
    match repo.headId with
    | some h => Except.ok h
    | none => Except.error "Failed to get HEAD"
  else
    match repo.resolve p with
    | some oid => Except.ok oid
    | none => Except.error "Failed to resolve revision"

/-- The exclusion set of a range: the full inclusive ancestor walk of the
lower bound when one is given, empty otherwise. -/
def range_exclude_set (repo : RepoModel) (start : Option ObjectId) : List ObjectId :=
  match start with
  | some s => repo.revWalk s
  | none => []

/-- Does the walk keep the commit: not excluded, resolvable (an unresolvable
id is skipped), and with at most one parent. -/
def keeps_commit (repo : RepoModel) (exclude_set : List ObjectId) (id : ObjectId) : Bool :=
  !exclude_set.contains id &&
    (match repo.findCommit id with
     | some c => decide (c.parents.length ≤ 1)
     | none => false)

/-- The hint appended to the no-separator format error message (quotes around
the examples in the original message are elided). -/
def invalid_format_hint : String := ". Use formats like HEAD~5..HEAD or abc123.."

/-- The error message rejecting the three-dot symmetric difference operator
(quotes in the original message are elided). -/
def symmetric_difference_error : String :=
  "Symmetric difference operator ... is not supported. Use .. instead (e.g., HEAD~5..HEAD)"

/-- Embedding of GitRepository::parse_commit_range of git.rs: reject three
dots, require a two-dot separator, split into exactly two parts (any other
part count is a format error), resolve both endpoints, build the exclusion
set, walk from the upper bound keeping non-excluded non-merge commits, and
reverse the newest-first walk into oldest-first order. -/
def parse_commit_range (repo : RepoModel) (range : String) : Except String (List ObjectId) :=
  if containsSubstr range "..." then Except.error symmetric_difference_error
  else if !containsSubstr range ".." then
    Except.error ("Invalid range format: " ++ range ++ invalid_format_hint)
  else
    match strSplitOn range ".." with
    | [p0, p1] =>
      match resolve_start repo p0 with
      | Except.error e => Except.error e
      | Except.ok start =>
        match resolve_end repo p1 with
        | Except.error e => Except.error e
        | Except.ok endId =>
          let exclude_set := range_exclude_set repo start
          let commits := (repo.revWalk endId).filter (keeps_commit repo exclude_set)
          Except.ok commits.reverse
    | _ => Except.error ("Invalid range format: " ++ range)

/-- Embedding of GitRepository::set_commit_range of git.rs: parse the range,
store it, and reset the shared cursor to zero. -/
def set_commit_range (repo : RepoModel) (_s : RangeState) (range : String) :
    Except String RangeState :=
  match parse_commit_range repo range with
  | Except.ok commits => Except.ok ⟨some commits, 0⟩
  | Except.error e => Except.error e

/- Concrete witness data. -/

/-- The bytes of a text of 2001 lines, each the line x: enough changed lines
to cross the MAX_CHANGE_LINES ceiling. -/
def bigBlobBytes : List Nat := (List.replicate 2001 [120, 10]).flatten

/-- A concrete repository for witnesses and counterexamples: three linear
commits (1 root, 3 newest at HEAD), small text blobs 1 and 2, a binary blob 3
(a NUL byte), an oversized-change text blob 4, Myers diffing. -/
def repoC : RepoModel :=
  { resolve := fun s => if s = "A" then some 1 else if s = "B" then some 3 else none
    headId := some 3
    revWalk := fun o =>
      if o = 3 then [3, 2, 1] else if o = 2 then [2, 1] else if o = 1 then [1] else []
    findCommit := fun o =>
      if o = 1 then some ⟨[]⟩ else if o = 2 then some ⟨[1]⟩
      else if o = 3 then some ⟨[2]⟩ else none
    blobs := fun o =>
      if o = 1 then some [97, 10]
      else if o = 2 then some [98, 10]
      else if o = 3 then some [0]
      else if o = 4 then some bigBlobBytes
      else none
    diffAlgorithm := Algorithm.Myers }


/- Definitions used by the theorems below. -/

/-- Do the two format-error messages of parse_commit_range share their prefix
with this message (they are the only errors with this prefix)? -/
def is_format_error (msg : String) : Bool :=
  startsWithList "Invalid range format: ".data msg.data

/-- The mirror image of a line: Addition and Deletion swapped, content kept,
old and new line numbers swapped. -/
def swap_line (l : LineChange) : LineChange :=
  ⟨match l.change_type with
    | LineChangeType.Addition => LineChangeType.Deletion
    | LineChangeType.Deletion => LineChangeType.Addition,
   l.content, l.new_line_no, l.old_line_no⟩

/-- Is the second hunk the exact mirror image of the first: start and count
fields swapped between the old and new sides, its Deletions the swapped
Additions of the first and its Additions the swapped Deletions of the first
(in order)? -/
def mirror_hunk (h k : DiffHunk) : Bool :=
  decide (k.old_start = h.new_start) && decide (k.old_lines = h.new_lines) &&
  decide (k.new_start = h.old_start) && decide (k.new_lines = h.old_lines) &&
  decide (k.lines.filter isDeletionLine = (h.lines.filter isAdditionLine).map swap_line) &&
  decide (k.lines.filter isAdditionLine = (h.lines.filter isDeletionLine).map swap_line)

/-- Are the hunk lists exact mirror images pointwise? -/
def mirror_hunks : List DiffHunk → List DiffHunk → Bool
  | [], [] => true
  | h :: hs, k :: ks => mirror_hunk h k && mirror_hunks hs ks
  | _, _ => false

/-- Total number of Addition lines over all hunks. -/
def total_additions (hs : List DiffHunk) : Nat :=
  (hs.map (fun h => (h.lines.filter isAdditionLine).length)).sum

/-- Total number of Deletion lines over all hunks. -/
def total_deletions (hs : List DiffHunk) : Nat :=
  (hs.map (fun h => (h.lines.filter isDeletionLine).length)).sum

/-- Number of del steps of an edit script. -/
def delCount : List DiffOp → Nat
  | [] => 0
  | DiffOp.del :: ops => delCount ops + 1
  | _ :: ops => delCount ops

/-- Number of add steps of an edit script. -/
def addCount : List DiffOp → Nat
  | [] => 0
  | DiffOp.add :: ops => addCount ops + 1
  | _ :: ops => addCount ops

/-- Number of keep steps of an edit script. -/
def keepCount : List DiffOp → Nat
  | [] => 0
  | DiffOp.keep :: ops => keepCount ops + 1
  | _ :: ops => keepCount ops

/-- Total before-side width of a region list. -/
def regionsDelWidth (rs : List Region) : Nat :=
  (rs.map (fun r => r.beforeEnd - r.beforeStart)).sum

/-- Total after-side width of a region list. -/
def regionsAddWidth (rs : List Region) : Nat :=
  (rs.map (fun r => r.afterEnd - r.afterStart)).sum

/-- Before-side width of the open region. -/
def curDelWidth : Option Region → Nat
  | none => 0
  | some r => r.beforeEnd - r.beforeStart

/-- After-side width of the open region. -/
def curAddWidth : Option Region → Nat
  | none => 0
  | some r => r.afterEnd - r.afterStart

/-- The invariant of the open region while grouping at before position i and
after position j: well-formed and ending exactly at the current positions. -/
def curInv : Option Region → Nat → Nat → Prop
  | none, _, _ => True
  | some r, i, j =>
    r.beforeStart ≤ r.beforeEnd ∧ r.beforeEnd = i ∧ r.afterStart ≤ r.afterEnd ∧ r.afterEnd = j

/-- A default FileChange for safe list access in witnesses. -/
def emptyFileChange : FileChange :=
  ⟨"", none, FileStatus.Added, false, false, none, none, none, [], ""⟩

/-- A small modification of Cargo.lock: excluded by policy yet carrying hunks. -/
def lockModEntry : ChangeEntry := ⟨"Cargo.lock", false, ChangeKind.Modification 1 2⟩

/-- An addition of a binary blob. -/
def binAddEntry : ChangeEntry := ⟨"image.bin", false, ChangeKind.Addition 3⟩

/-- An addition of 2001 text lines at a lock-file path: the policy exclusion
and the changed-line ceiling hold at once. -/
def bigAddEntry : ChangeEntry := ⟨"Cargo.lock", false, ChangeKind.Addition 4⟩

/-- An ordinary small modification at a non-excluded path. -/
def plainModEntry : ChangeEntry := ⟨"src/main.rs", false, ChangeKind.Modification 1 2⟩

/-- The FileChange extracted for lockModEntry. -/
def fcLockMod : FileChange := (extract_changes repoC none [lockModEntry]).headD emptyFileChange

/-- The FileChange extracted for binAddEntry. -/
def fcBinAdd : FileChange := (extract_changes repoC none [binAddEntry]).headD emptyFileChange

/-- The FileChange extracted for plainModEntry. -/
def fcPlainMod : FileChange := (extract_changes repoC none [plainModEntry]).headD emptyFileChange

/- Theorems. -/

/-- C3: for the old text of the three lines line1, line2, line3 and the new
text with line2 replaced by modified line2, generate_hunks returns exactly one
hunk with old_start 2, old_lines 1, new_start 2, new_lines 1 whose lines are a
Deletion of line2 with old line number 2 followed by an Addition of modified
line2 with new line number 2, and the Myers and Histogram strategies both
produce exactly this result. -/
theorem c3_single_modification_hunk :
    generate_hunks (some "line1\nline2\nline3\n") (some "line1\nmodified line2\nline3\n")
        Algorithm.Myers =
      [⟨2, 1, 2, 1,
        [⟨LineChangeType.Deletion, "line2", some 2, none⟩,
         ⟨LineChangeType.Addition, "modified line2", none, some 2⟩]⟩] ∧
    generate_hunks (some "line1\nline2\nline3\n") (some "line1\nmodified line2\nline3\n")
        Algorithm.Histogram =
      [⟨2, 1, 2, 1,
        [⟨LineChangeType.Deletion, "line2", some 2, none⟩,
         ⟨LineChangeType.Addition, "modified line2", none, some 2⟩]⟩] :=
  ⟨rfl, rfl⟩

/-- Ascending selection at a cursor still inside the cache returns the element
read from the tail backward and advances the cursor. -/
theorem next_asc_commit_ok (c : List ObjectId) (i : Nat) (h : i < c.length) :
    next_asc_commit ⟨c, i⟩ =
      Except.ok (c.get ⟨c.length - 1 - i, by omega⟩, ⟨c, i + 1⟩) := by
  have hne : c.isEmpty = false := by
    cases c with
    | nil => simp at h
    | cons a l => rfl
  have hidx : c.length - 1 - i < c.length := by omega
  simp [next_asc_commit, hne, List.getElem?_eq_getElem hidx, Nat.not_le.mpr h]

/-- Descending selection at a cursor still inside the cache returns the
element read from the head forward and advances the cursor. -/
theorem next_desc_commit_ok (c : List ObjectId) (i : Nat) (h : i < c.length) :
    next_desc_commit ⟨c, i⟩ = Except.ok (c.get ⟨i, h⟩, ⟨c, i + 1⟩) := by
  have hne : c.isEmpty = false := by
    cases c with
    | nil => simp at h
    | cons a l => rfl
  simp [next_desc_commit, hne, List.getElem?_eq_getElem h, Nat.not_le.mpr h]

/-- Run to exhaustion ascending from cursor i: the reversed remaining prefix. -/
theorem run_asc_eq (c : List ObjectId) :
    ∀ k i, i + k = c.length → run_asc k ⟨c, i⟩ = (c.take (c.length - i)).reverse := by
  intro k
  induction k with
  | zero =>
    intro i hi
    have h0 : c.length - i = 0 := by omega
    simp [run_asc, h0]
  | succ k ih =>
    intro i hi
    have h : i < c.length := by omega
    have hn : c.length - i = (c.length - (i + 1)) + 1 := by omega
    have hm : c.length - (i + 1) < c.length := by omega
    rw [run_asc, next_asc_commit_ok c i h]
    show c.get ⟨c.length - 1 - i, by omega⟩ :: run_asc k ⟨c, i + 1⟩ = _
    have hidx : c.length - 1 - i = c.length - (i + 1) := by omega
    rw [ih (i + 1) (by omega), hn]
    rw [List.take_succ, List.getElem?_eq_getElem hm]
    simp only [hidx, List.get_eq_getElem, Option.toList_some, List.reverse_append,
      List.reverse_singleton, List.singleton_append]

/-- Run to exhaustion descending from cursor i: the remaining suffix. -/
theorem run_desc_eq (c : List ObjectId) :
    ∀ k i, i + k = c.length → run_desc k ⟨c, i⟩ = c.drop i := by
  intro k
  induction k with
  | zero =>
    intro i hi
    have h0 : c.drop i = [] := List.drop_eq_nil_of_le (by omega)
    simp [run_desc, h0]
  | succ k ih =>
    intro i hi
    have h : i < c.length := by omega
    rw [run_desc, next_desc_commit_ok c i h]
    show c.get ⟨i, h⟩ :: run_desc k ⟨c, i + 1⟩ = _
    rw [ih (i + 1) (by omega), List.drop_eq_getElem_cons h]
    simp [List.get_eq_getElem]

/-- C6: over any non-empty candidate list, ascending playback run to
exhaustion from cursor zero selects indices n-1 down to 0 (the reversed list),
descending playback selects indices 0 up to n-1 (the list itself), the two
runs are reverses of one another, and both selections fail once the cursor
reaches the cache length. -/
theorem c6_asc_desc_mirror (c : List ObjectId) (h : c ≠ []) :
    run_asc c.length ⟨c, 0⟩ = c.reverse ∧
    run_desc c.length ⟨c, 0⟩ = c ∧
    run_asc c.length ⟨c, 0⟩ = (run_desc c.length ⟨c, 0⟩).reverse ∧
    next_asc_commit ⟨c, c.length⟩ = Except.error "All commits have been played" ∧
    next_desc_commit ⟨c, c.length⟩ = Except.error "All commits have been played" := by
  have hne : c.isEmpty = false := by
    cases c with
    | nil => exact absurd rfl h
    | cons a l => rfl
  have h1 : run_asc c.length ⟨c, 0⟩ = c.reverse := by
    have := run_asc_eq c c.length 0 (by omega)
    simpa using this
  have h2 : run_desc c.length ⟨c, 0⟩ = c := by
    have := run_desc_eq c c.length 0 (by omega)
    simpa using this
  refine ⟨h1, h2, by rw [h1, h2], ?_, ?_⟩
  · simp [next_asc_commit, hne]
  · simp [next_desc_commit, hne]

/-- Witness for C6 at the concrete candidate list 10, 20, 30. -/
theorem c6_asc_desc_mirror_witness :
    run_asc 3 ⟨[10, 20, 30], 0⟩ = [30, 20, 10] ∧
    run_desc 3 ⟨[10, 20, 30], 0⟩ = [10, 20, 30] ∧
    next_asc_commit ⟨[10, 20, 30], 3⟩ = Except.error "All commits have been played" := by
  have h := c6_asc_desc_mirror [10, 20, 30] (by decide)
  exact ⟨h.1, h.2.1, h.2.2.2.1⟩

/-- C9: range playback selection fails with three mutually distinguishable
errors, no range configured, nothing to select, and exhausted, and succeeds
(selecting at the documented index and advancing the cursor) when none of the
three conditions holds. -/
theorem c9_range_error_taxonomy :
    (∀ i, next_range_commit_asc ⟨none, i⟩ = Except.error "Commit range not set") ∧
    (∀ i, next_range_commit_desc ⟨none, i⟩ = Except.error "Commit range not set") ∧
    (∀ i, next_range_commit_asc ⟨some [], i⟩ = Except.error "No commits in range") ∧
    (∀ i, next_range_commit_desc ⟨some [], i⟩ = Except.error "No commits in range") ∧
    (∀ c : List ObjectId, ∀ i, c ≠ [] → c.length ≤ i →
      next_range_commit_asc ⟨some c, i⟩ =
        Except.error "All commits in range have been played") ∧
    (∀ c : List ObjectId, ∀ i, c ≠ [] → c.length ≤ i →
      next_range_commit_desc ⟨some c, i⟩ =
        Except.error "All commits in range have been played") ∧
    (∀ c : List ObjectId, ∀ i, ∀ h : i < c.length,
      next_range_commit_asc ⟨some c, i⟩ = Except.ok (c.get ⟨i, h⟩, ⟨some c, i + 1⟩)) ∧
    (∀ c : List ObjectId, ∀ i, ∀ h : i < c.length,
      next_range_commit_desc ⟨some c, i⟩ =
        Except.ok (c.get ⟨c.length - 1 - i, by omega⟩, ⟨some c, i + 1⟩)) ∧
    ("Commit range not set" ≠ "No commits in range") ∧
    ("Commit range not set" ≠ "All commits in range have been played") ∧
    ("No commits in range" ≠ "All commits in range have been played") := by
  refine ⟨fun i => rfl, fun i => rfl, fun i => rfl, fun i => rfl,
    ?_, ?_, ?_, ?_, by decide, by decide, by decide⟩
  · intro c i hc hi
    have hne : c.isEmpty = false := by
      cases c with
      | nil => exact absurd rfl hc
      | cons a l => rfl
    simp [next_range_commit_asc, hne, hi]
  · intro c i hc hi
    have hne : c.isEmpty = false := by
      cases c with
      | nil => exact absurd rfl hc
      | cons a l => rfl
    simp [next_range_commit_desc, hne, hi]
  · intro c i h
    have hne : c.isEmpty = false := by
      cases c with
      | nil => simp at h
      | cons a l => rfl
    simp [next_range_commit_asc, hne, List.getElem?_eq_getElem h, Nat.not_le.mpr h]
  · intro c i h
    have hne : c.isEmpty = false := by
      cases c with
      | nil => simp at h
      | cons a l => rfl
    have hidx : c.length - 1 - i < c.length := by omega
    simp [next_range_commit_desc, hne, List.getElem?_eq_getElem hidx, Nat.not_le.mpr h]

/-- Witness for C9 at the concrete range list 7, 8. -/
theorem c9_range_error_taxonomy_witness :
    next_range_commit_asc ⟨none, 0⟩ = Except.error "Commit range not set" ∧
    next_range_commit_asc ⟨some [], 0⟩ = Except.error "No commits in range" ∧
    next_range_commit_asc ⟨some [7, 8], 2⟩ =
      Except.error "All commits in range have been played" ∧
    next_range_commit_asc ⟨some [7, 8], 0⟩ = Except.ok (7, ⟨some [7, 8], 1⟩) := by
  have h := c9_range_error_taxonomy
  exact ⟨h.1 0, h.2.2.1 0, h.2.2.2.2.1 [7, 8] 2 (by decide) (by decide),
    h.2.2.2.2.2.2.1 [7, 8] 0 (by decide)⟩

/-- get_blob_content at a resolvable blob reduces to the size and NUL test. -/
theorem get_blob_content_some (repo : RepoModel) (id : ObjectId) (data : List Nat)
    (h : repo.blobs id = some data) :
    get_blob_content repo id =
      if decide (data.length > MAX_BLOB_SIZE) || data.contains 0 then Except.ok none
      else Except.ok (some (fromUtf8Lossy data)) := by
  unfold get_blob_content
  rw [h]

/-- is_blob_binary at a resolvable blob reduces to the size and NUL test. -/
theorem is_blob_binary_some (repo : RepoModel) (id : ObjectId) (data : List Nat)
    (h : repo.blobs id = some data) :
    is_blob_binary repo id = (decide (data.length > MAX_BLOB_SIZE) || data.contains 0) := by
  unfold is_blob_binary
  rw [h]

/-- C8: for a resolvable blob, get_blob_content returns none exactly when the
byte length exceeds 500 KiB or a NUL byte occurs, and otherwise returns the
lossy UTF-8 decoding; is_blob_binary is true under exactly the same
condition. -/
theorem c8_blob_reader (repo : RepoModel) (id : ObjectId) (data : List Nat)
    (h : repo.blobs id = some data) :
    (get_blob_content repo id = Except.ok none ↔
      MAX_BLOB_SIZE < data.length ∨ data.contains 0 = true) ∧
    (¬(MAX_BLOB_SIZE < data.length ∨ data.contains 0 = true) →
      get_blob_content repo id = Except.ok (some (fromUtf8Lossy data))) ∧
    (is_blob_binary repo id = true ↔
      MAX_BLOB_SIZE < data.length ∨ data.contains 0 = true) := by
  have hget := get_blob_content_some repo id data h
  have hbin := is_blob_binary_some repo id data h
  have hbiff : (decide (data.length > MAX_BLOB_SIZE) || data.contains 0) = true ↔
      (MAX_BLOB_SIZE < data.length ∨ data.contains 0 = true) := by
    rw [Bool.or_eq_true, decide_eq_true_iff]
  cases hb : (decide (data.length > MAX_BLOB_SIZE) || data.contains 0) with
  | true =>
    have hcond : MAX_BLOB_SIZE < data.length ∨ data.contains 0 = true := hbiff.mp hb
    have hget2 : get_blob_content repo id = Except.ok none := by
      rw [hget, hb]
      simp
    have hbin2 : is_blob_binary repo id = true := by rw [hbin, hb]
    exact ⟨⟨fun _ => hcond, fun _ => hget2⟩, fun hnc => absurd hcond hnc,
      ⟨fun _ => hcond, fun _ => hbin2⟩⟩
  | false =>
    have hcond : ¬(MAX_BLOB_SIZE < data.length ∨ data.contains 0 = true) := by
      intro hor
      rw [hbiff.mpr hor] at hb
      cases hb
    have hget2 : get_blob_content repo id = Except.ok (some (fromUtf8Lossy data)) := by
      rw [hget, hb]
      simp
    have hbin2 : is_blob_binary repo id = false := by rw [hbin, hb]
    refine ⟨⟨fun heq => ?_, fun hor => absurd hor hcond⟩, fun _ => hget2,
      ⟨fun hbt => ?_, fun hor => absurd hor hcond⟩⟩
    · rw [hget2] at heq
      simp at heq
    · rw [hbin2] at hbt
      cases hbt

/-- Witness for C8 at the small resolvable text blob 1 of the concrete
repository. -/
theorem c8_blob_reader_witness :
    repoC.blobs 1 = some [97, 10] ∧
    (is_blob_binary repoC 1 = true ↔
      MAX_BLOB_SIZE < [97, 10].length ∨ [97, 10].contains 0 = true) ∧
    get_blob_content repoC 1 = Except.ok (some (fromUtf8Lossy [97, 10])) :=
  ⟨rfl, (c8_blob_reader repoC 1 [97, 10] rfl).2.2,
   (c8_blob_reader repoC 1 [97, 10] rfl).2.1 (by decide)⟩

/-- C4: for a range expression splitting at the two-dot separator into sides
p0 and p1 (no three-dot operator) whose endpoints resolve, parse_commit_range
returns exactly the reverse of the newest-first history walk from the upper
bound filtered to commits outside the inclusive ancestor walk of the lower
bound and with parent count at most one; an empty left side yields the empty
exclusion set, and an empty right side resolves to HEAD. -/
theorem c4_parse_commit_range (repo : RepoModel) (range p0 p1 : String)
    (hdots : containsSubstr range "..." = false)
    (hsplit : strSplitOn range ".." = [p0, p1])
    (os : Option ObjectId) (e : ObjectId)
    (hs : resolve_start repo p0 = Except.ok os)
    (he : resolve_end repo p1 = Except.ok e) :
    parse_commit_range repo range =
      Except.ok (((repo.revWalk e).filter
        (keeps_commit repo (range_exclude_set repo os))).reverse) ∧
    resolve_start repo "" = Except.ok none ∧
    range_exclude_set repo none = [] ∧
    (∀ hd, repo.headId = some hd → resolve_end repo "" = Except.ok hd) := by
  refine ⟨?_, rfl, rfl, ?_⟩
  · have hcont : containsSubstr range ".." = true := by
      unfold containsSubstr
      rw [hsplit]
      rfl
    unfold parse_commit_range
    simp only [hdots, hcont, hsplit, Bool.not_true, Bool.false_eq_true, if_false, hs, he]
  · intro hd hhd
    simp [resolve_end, hhd]

/-- Witness for C4 at the concrete repository and the expression A..B. -/
theorem c4_parse_commit_range_witness :
    parse_commit_range repoC "A..B" = Except.ok [2, 3] := by
  have h := (c4_parse_commit_range repoC "A..B" "A" "B" rfl rfl
    (some 1) 3 rfl rfl).1
  rw [h]
  rfl

/-- A list starts with itself in front of any suffix. -/
theorem startsWithList_append [DecidableEq α] (p l : List α) :
    startsWithList p (p ++ l) = true := by
  induction p with
  | nil => rfl
  | cons x ps ih => simp [startsWithList, ih]

/-- C5 corrected: every expression containing the three-dot operator fails
with the symmetric-difference (invalid-range) error; every expression without
three dots whose two-dot separator count is not exactly one (the split does
not have exactly two parts) fails with a format error; the two error shapes
are distinguishable. -/
theorem c5_range_syntax_errors :
    (∀ repo : RepoModel, ∀ range, containsSubstr range "..." = true →
      parse_commit_range repo range = Except.error symmetric_difference_error) ∧
    (∀ repo : RepoModel, ∀ range, containsSubstr range "..." = false →
      (strSplitOn range "..").length ≠ 2 →
      ∃ msg, parse_commit_range repo range = Except.error msg ∧
        is_format_error msg = true) ∧
    is_format_error symmetric_difference_error = false := by
  refine ⟨?_, ?_, by decide⟩
  · intro repo range h
    unfold parse_commit_range
    rw [h]
    rfl
  · intro repo range h hn
    cases hsp : strSplitOn range ".." with
    | nil =>
      refine ⟨"Invalid range format: " ++ range, ?_, ?_⟩
      · unfold parse_commit_range
        rw [h]
        simp [containsSubstr, hsp]
      · unfold is_format_error
        rw [String.data_append]
        exact startsWithList_append _ _
    | cons a t =>
      cases t with
      | nil =>
        refine ⟨"Invalid range format: " ++ range ++ invalid_format_hint, ?_, ?_⟩
        · unfold parse_commit_range
          rw [h]
          simp [containsSubstr, hsp]
        · unfold is_format_error
          rw [String.data_append, String.data_append, List.append_assoc]
          exact startsWithList_append _ _
      | cons b t2 =>
        cases t2 with
        | nil => exact absurd (by rw [hsp]; rfl) hn
        | cons c3 t3 =>
          refine ⟨"Invalid range format: " ++ range, ?_, ?_⟩
          · unfold parse_commit_range
            rw [h]
            simp [containsSubstr, hsp]
          · unfold is_format_error
            rw [String.data_append]
            exact startsWithList_append _ _

/-- Witness for the corrected C5 at the expressions consisting of three dots
and of no dots. -/
theorem c5_range_syntax_errors_witness :
    parse_commit_range repoC "..." = Except.error symmetric_difference_error ∧
    (∃ msg, parse_commit_range repoC "abc" = Except.error msg ∧
      is_format_error msg = true) :=
  ⟨c5_range_syntax_errors.1 repoC "..." (by decide),
   c5_range_syntax_errors.2.1 repoC "abc" (by decide) (by decide)⟩

/-- C5 counterexample: the expression a....b holds two two-dot separators
(its split has three parts, so the separator count is not one), yet
parse_commit_range rejects it with the symmetric-difference invalid-range
error, which is not a format error as the claim demands. -/
theorem c5_counterexample :
    parse_commit_range repoC "a....b" = Except.error symmetric_difference_error ∧
    (strSplitOn "a....b" "..").length = 3 ∧
    is_format_error symmetric_difference_error = false :=
  ⟨rfl, by decide, by decide⟩

/-- One extraction step appends its produced changes to the accumulator. -/
theorem extract_change_step_append (repo : RepoModel) (up : Option (String → Bool))
    (acc : List FileChange) (ch : ChangeEntry) :
    extract_change_step repo up acc ch = acc ++ extract_change_step repo up [] ch := by
  cases h : ch.is_tree with
  | true => simp [extract_change_step, h]
  | false => simp [extract_change_step, h]

/-- Every member of the extractor output comes from a single entry. -/
theorem mem_extract_changes (repo : RepoModel) (up : Option (String → Bool)) :
    ∀ (entries : List ChangeEntry) (acc : List FileChange) (fc : FileChange),
      fc ∈ entries.foldl (extract_change_step repo up) acc →
      fc ∈ acc ∨ ∃ ch ∈ entries, fc = change_record repo up ch := by
  intro entries
  induction entries with
  | nil =>
    intro acc fc h
    exact Or.inl h
  | cons ch chs ih =>
    intro acc fc h
    rw [List.foldl_cons] at h
    rcases ih (extract_change_step repo up acc ch) fc h with hacc | ⟨ch2, hch2, hfc⟩
    · rw [extract_change_step_append] at hacc
      rcases List.mem_append.mp hacc with h1 | h2
      · exact Or.inl h1
      · unfold extract_change_step at h2
        by_cases htree : ch.is_tree = true
        · rw [if_pos htree] at h2
          cases h2
        · rw [if_neg htree] at h2
          simp at h2
          exact Or.inr ⟨ch, List.mem_cons_self ch chs, h2⟩
    · exact Or.inr ⟨ch2, List.mem_cons_of_mem ch hch2, hfc⟩

/-- The invariant fields of one produced record: a binary change has empty
hunks, the exclusion flag is set exactly when a reason is recorded, the path
is the entry location, and a policy-excluded path records the policy reason. -/
theorem change_record_fields (repo : RepoModel) (up : Option (String → Bool))
    (ch : ChangeEntry) :
    ((change_record repo up ch).is_binary = true → (change_record repo up ch).hunks = []) ∧
    ((change_record repo up ch).is_excluded = (change_record repo up ch).exclusion_reason.isSome) ∧
    ((change_record repo up ch).path = ch.location) ∧
    (should_exclude_file up ch.location = true →
      (change_record repo up ch).is_excluded = true ∧
      (change_record repo up ch).exclusion_reason = some "lock/generated file") := by
  refine ⟨?_, ?_, ?_, ?_⟩
  · intro hbin
    simp only [change_record] at hbin ⊢
    rw [hbin]
    simp
  · simp only [change_record]
    split_ifs <;> simp
  · simp only [change_record]
  · intro hexcl
    simp only [change_record]
    rw [hexcl]
    simp

/-- C1 amended: every FileChange produced by the tree change extractor with
is_binary true has empty hunks (exclusion alone does not clear hunks: the
extractor computes hunks before the exclusion check and stores them
unchanged). -/
theorem c1_binary_empty_hunks (repo : RepoModel) (up : Option (String → Bool))
    (entries : List ChangeEntry) (fc : FileChange)
    (hmem : fc ∈ extract_changes repo up entries) (hbin : fc.is_binary = true) :
    fc.hunks = [] := by
  rcases mem_extract_changes repo up entries [] fc hmem with h | ⟨ch, _, hfc⟩
  · cases h
  · subst hfc
    exact (change_record_fields repo up ch).1 hbin

/-- Witness for the amended C1 at the binary-blob addition. -/
theorem c1_binary_empty_hunks_witness :
    fcBinAdd.is_binary = true ∧ fcBinAdd.hunks = [] :=
  ⟨rfl, c1_binary_empty_hunks repoC none [binAddEntry] fcBinAdd (by decide) rfl⟩

/-- C1 counterexample: the small non-binary Cargo.lock modification is marked
excluded (policy reason) yet its hunks are not empty, refuting the claimed
invariant that is_excluded implies empty hunks. -/
theorem c1_counterexample :
    ¬ ∀ fc ∈ extract_changes repoC none [lockModEntry],
      (fc.is_excluded = true ∨ fc.is_binary = true) → fc.hunks = [] := by
  decide

/-- C2 amended: whenever the exclusion policy matches the path of a produced
FileChange, the recorded reason is the policy reason lock/generated file (the
policy check precedes the changed-line ceiling check, so the policy reason
takes precedence when both conditions hold). -/
theorem c2_policy_reason_precedence (repo : RepoModel) (up : Option (String → Bool))
    (entries : List ChangeEntry) (fc : FileChange)
    (hmem : fc ∈ extract_changes repo up entries)
    (hpol : should_exclude_file up fc.path = true) :
    fc.is_excluded = true ∧ fc.exclusion_reason = some "lock/generated file" := by
  rcases mem_extract_changes repo up entries [] fc hmem with h | ⟨ch, _, hfc⟩
  · cases h
  · subst hfc
    rw [(change_record_fields repo up ch).2.2.1] at hpol
    exact (change_record_fields repo up ch).2.2.2 hpol

/-- Witness for the amended C2 at the small Cargo.lock modification. -/
theorem c2_policy_reason_precedence_witness :
    fcLockMod.is_excluded = true ∧ fcLockMod.exclusion_reason = some "lock/generated file" :=
  c2_policy_reason_precedence repoC none [lockModEntry] fcLockMod (by decide) (by decide)

/-- C10: for every FileChange produced by the tree change extractor, the
exclusion flag is true exactly when an exclusion reason is recorded. -/
theorem c10_excluded_iff_reason (repo : RepoModel) (up : Option (String → Bool))
    (entries : List ChangeEntry) (fc : FileChange)
    (hmem : fc ∈ extract_changes repo up entries) :
    fc.is_excluded = fc.exclusion_reason.isSome := by
  rcases mem_extract_changes repo up entries [] fc hmem with h | ⟨ch, _, hfc⟩
  · cases h
  · subst hfc
    exact (change_record_fields repo up ch).2.1

/-- Witness for C10 at the plain small modification. -/
theorem c10_excluded_iff_reason_witness :
    fcPlainMod.is_excluded = fcPlainMod.exclusion_reason.isSome :=
  c10_excluded_iff_reason repoC none [plainModEntry] fcPlainMod (by decide)

/-- A pure-addition script holds no del steps. -/
theorem delCount_replicate_add (n : Nat) : delCount (List.replicate n DiffOp.add) = 0 := by
  induction n with
  | zero => rfl
  | succ n ih => simpa [List.replicate_succ, delCount] using ih

/-- A pure-addition script holds one add step per line. -/
theorem addCount_replicate_add (n : Nat) : addCount (List.replicate n DiffOp.add) = n := by
  induction n with
  | zero => rfl
  | succ n ih => simpa [List.replicate_succ, addCount] using ih

/-- A pure-addition script holds no keep steps. -/
theorem keepCount_replicate_add (n : Nat) : keepCount (List.replicate n DiffOp.add) = 0 := by
  induction n with
  | zero => rfl
  | succ n ih => simpa [List.replicate_succ, keepCount] using ih

/-- A pure-deletion script holds one del step per line. -/
theorem delCount_replicate_del (n : Nat) : delCount (List.replicate n DiffOp.del) = n := by
  induction n with
  | zero => rfl
  | succ n ih => simpa [List.replicate_succ, delCount] using ih

/-- A pure-deletion script holds no add steps. -/
theorem addCount_replicate_del (n : Nat) : addCount (List.replicate n DiffOp.del) = 0 := by
  induction n with
  | zero => rfl
  | succ n ih => simpa [List.replicate_succ, addCount] using ih

/-- A pure-deletion script holds no keep steps. -/
theorem keepCount_replicate_del (n : Nat) : keepCount (List.replicate n DiffOp.del) = 0 := by
  induction n with
  | zero => rfl
  | succ n ih => simpa [List.replicate_succ, keepCount] using ih

/-- The edit script consumes the old side with del and keep steps and the new
side with add and keep steps. -/
theorem diffOpsF_consume [DecidableEq α] :
    ∀ (fuel : Nat) (a b : List α), a.length + b.length ≤ fuel →
      delCount (diffOpsF fuel a b) + keepCount (diffOpsF fuel a b) = a.length ∧
      addCount (diffOpsF fuel a b) + keepCount (diffOpsF fuel a b) = b.length := by
  intro fuel
  induction fuel with
  | zero =>
    intro a b h
    have ha : a = [] := List.length_eq_zero.mp (by omega)
    have hb : b = [] := List.length_eq_zero.mp (by omega)
    subst ha
    subst hb
    exact ⟨rfl, rfl⟩
  | succ fuel ih =>
    intro a b h
    cases a with
    | nil => simp [diffOpsF, delCount_replicate_add, addCount_replicate_add, keepCount_replicate_add]
    | cons x xs =>
      cases b with
      | nil =>
        simp [diffOpsF, delCount, addCount, keepCount, delCount_replicate_del,
          addCount_replicate_del, keepCount_replicate_del]
      | cons y ys =>
        simp only [List.length_cons] at h
        by_cases hxy : x = y
        · have hx := ih xs ys (by omega)
          simp only [diffOpsF, if_pos hxy, delCount, addCount, keepCount, List.length_cons]
          omega
        · by_cases hle : lcsLen (x :: xs) ys ≤ lcsLen xs (y :: ys)
          · have hx := ih xs (y :: ys) (by simp; omega)
            simp only [diffOpsF, if_neg hxy, if_pos hle, delCount, addCount, keepCount,
              List.length_cons]
            simp only [List.length_cons] at hx
            omega
          · have hx := ih (x :: xs) ys (by simp; omega)
            simp only [diffOpsF, if_neg hxy, if_neg hle, delCount, addCount, keepCount,
              List.length_cons]
            simp only [List.length_cons] at hx
            omega

/-- The fuelled longest-common-subsequence length is fuel-independent once the
fuel covers the sum of the lengths. -/
theorem lcsLenF_fuel [DecidableEq α] :
    ∀ (f g : Nat) (a b : List α), a.length + b.length ≤ f → a.length + b.length ≤ g →
      lcsLenF f a b = lcsLenF g a b := by
  intro f
  induction f with
  | zero =>
    intro g a b hf hg
    have ha : a = [] := List.length_eq_zero.mp (by omega)
    have hb : b = [] := List.length_eq_zero.mp (by omega)
    subst ha
    subst hb
    cases g <;> rfl
  | succ f ih =>
    intro g a b hf hg
    cases g with
    | zero =>
      have ha : a = [] := List.length_eq_zero.mp (by omega)
      have hb : b = [] := List.length_eq_zero.mp (by omega)
      subst ha
      subst hb
      rfl
    | succ g =>
      cases a with
      | nil => rfl
      | cons x xs =>
        cases b with
        | nil => rfl
        | cons y ys =>
          simp only [List.length_cons] at hf hg
          simp only [lcsLenF]
          by_cases hxy : x = y
          · rw [if_pos hxy, if_pos hxy, ih g xs ys (by omega) (by omega)]
          · rw [if_neg hxy, if_neg hxy, ih g xs (y :: ys) (by simp; omega) (by simp; omega),
              ih g (x :: xs) ys (by simp; omega) (by simp; omega)]

/-- A sufficiently fuelled longest-common-subsequence length equals lcsLen. -/
theorem lcsLenF_eq_lcsLen [DecidableEq α] (f : Nat) (a b : List α)
    (h : a.length + b.length ≤ f) : lcsLenF f a b = lcsLen a b :=
  lcsLenF_fuel f (a.length + b.length) a b h (Nat.le_refl _)

/-- The longest common subsequence with an empty left side is empty. -/
theorem lcsLen_nil_left [DecidableEq α] (b : List α) : lcsLen [] b = 0 := by
  unfold lcsLen
  cases b <;> rfl

/-- The longest common subsequence with an empty right side is empty. -/
theorem lcsLen_nil_right [DecidableEq α] (a : List α) : lcsLen a [] = 0 := by
  unfold lcsLen
  cases a <;> rfl

/-- Equal heads always join the longest common subsequence. -/
theorem lcsLen_cons_cons_eq [DecidableEq α] (x : α) (xs ys : List α) :
    lcsLen (x :: xs) (x :: ys) = lcsLen xs ys + 1 := by
  rw [← lcsLenF_eq_lcsLen (xs.length + ys.length + 2) (x :: xs) (x :: ys) (by simp; omega)]
  simp only [lcsLenF, if_pos rfl]
  rw [lcsLenF_eq_lcsLen (xs.length + ys.length + 1) xs ys (by omega)]
  simp

/-- Distinct heads reduce the longest common subsequence to the binary
maximum of the two drops. -/
theorem lcsLen_cons_cons_ne [DecidableEq α] (x y : α) (xs ys : List α) (hxy : x ≠ y) :
    lcsLen (x :: xs) (y :: ys) = max (lcsLen xs (y :: ys)) (lcsLen (x :: xs) ys) := by
  rw [← lcsLenF_eq_lcsLen (xs.length + ys.length + 2) (x :: xs) (y :: ys) (by simp; omega)]
  simp only [lcsLenF, if_neg hxy]
  rw [lcsLenF_eq_lcsLen (xs.length + ys.length + 1) xs (y :: ys) (by simp; omega),
    lcsLenF_eq_lcsLen (xs.length + ys.length + 1) (x :: xs) ys (by simp; omega)]

/-- The longest-common-subsequence length is symmetric. -/
theorem lcsLen_comm [DecidableEq α] :
    ∀ (n : Nat) (a b : List α), a.length + b.length ≤ n → lcsLen a b = lcsLen b a := by
  intro n
  induction n with
  | zero =>
    intro a b h
    have ha : a = [] := List.length_eq_zero.mp (by omega)
    have hb : b = [] := List.length_eq_zero.mp (by omega)
    subst ha
    subst hb
    rfl
  | succ n ih =>
    intro a b h
    cases a with
    | nil => rw [lcsLen_nil_left, lcsLen_nil_right]
    | cons x xs =>
      cases b with
      | nil => rw [lcsLen_nil_left, lcsLen_nil_right]
      | cons y ys =>
        simp only [List.length_cons] at h
        by_cases hxy : x = y
        · subst hxy
          rw [lcsLen_cons_cons_eq, lcsLen_cons_cons_eq, ih xs ys (by omega)]
        · rw [lcsLen_cons_cons_ne x y xs ys hxy, lcsLen_cons_cons_ne y x ys xs (Ne.symm hxy),
            ih xs (y :: ys) (by simp; omega), ih (x :: xs) ys (by simp; omega),
            Nat.max_comm]

/-- The script deletes exactly the old lines outside the longest common
subsequence and adds exactly the new lines outside it. -/
theorem diffOpsF_lcs_counts [DecidableEq α] :
    ∀ (fuel : Nat) (a b : List α), a.length + b.length ≤ fuel →
      delCount (diffOpsF fuel a b) + lcsLen a b = a.length ∧
      addCount (diffOpsF fuel a b) + lcsLen a b = b.length := by
  intro fuel
  induction fuel with
  | zero =>
    intro a b h
    have ha : a = [] := List.length_eq_zero.mp (by omega)
    have hb : b = [] := List.length_eq_zero.mp (by omega)
    subst ha
    subst hb
    exact ⟨rfl, rfl⟩
  | succ fuel ih =>
    intro a b h
    cases a with
    | nil =>
      simp [diffOpsF, delCount_replicate_add, addCount_replicate_add, lcsLen_nil_left]
    | cons x xs =>
      cases b with
      | nil =>
        simp [diffOpsF, delCount, addCount, delCount_replicate_del, addCount_replicate_del,
          lcsLen_nil_right]
      | cons y ys =>
        simp only [List.length_cons] at h
        by_cases hxy : x = y
        · subst hxy
          have hx := ih xs ys (by omega)
          simp only [diffOpsF, if_pos rfl, delCount, addCount, lcsLen_cons_cons_eq,
            List.length_cons]
          omega
        · by_cases hle : lcsLen (x :: xs) ys ≤ lcsLen xs (y :: ys)
          · have hx := ih xs (y :: ys) (by simp; omega)
            simp only [List.length_cons] at hx
            simp only [diffOpsF, if_neg hxy, if_pos hle, delCount, addCount,
              lcsLen_cons_cons_ne x y xs ys hxy, Nat.max_eq_left hle, List.length_cons]
            omega
          · have hx := ih (x :: xs) ys (by simp; omega)
            simp only [List.length_cons] at hx
            have hlt : lcsLen xs (y :: ys) ≤ lcsLen (x :: xs) ys := by omega
            simp only [diffOpsF, if_neg hxy, if_neg hle, delCount, addCount,
              lcsLen_cons_cons_ne x y xs ys hxy, Nat.max_eq_right hlt, List.length_cons]
            omega

/-- Grouping an edit script into regions: the total before width of the
produced regions is the held width plus the script del count, the total after
width is the held width plus the add count, and every region ends within the
consumed spans. -/
theorem changeRegions_spec :
    ∀ (ops : List DiffOp) (i j : Nat) (cur : Option Region), curInv cur i j →
      (regionsDelWidth (changeRegions ops i j cur) = curDelWidth cur + delCount ops ∧
       regionsAddWidth (changeRegions ops i j cur) = curAddWidth cur + addCount ops) ∧
      (∀ r ∈ changeRegions ops i j cur,
        r.beforeEnd ≤ i + delCount ops + keepCount ops ∧
        r.afterEnd ≤ j + addCount ops + keepCount ops) := by
  intro ops
  induction ops with
  | nil =>
    intro i j cur hinv
    cases cur with
    | none =>
      refine ⟨⟨rfl, rfl⟩, ?_⟩
      intro r hr
      cases hr
    | some r0 =>
      obtain ⟨_, hbe, _, hae⟩ := hinv
      refine ⟨⟨by simp [changeRegions, flushRegion, regionsDelWidth, curDelWidth, delCount],
        by simp [changeRegions, flushRegion, regionsAddWidth, curAddWidth, addCount]⟩, ?_⟩
      intro r hr
      simp only [changeRegions, flushRegion, List.mem_singleton] at hr
      subst hr
      simp only [delCount, addCount, keepCount]
      omega
  | cons op rest ih =>
    intro i j cur hinv
    cases op with
    | keep =>
      have hrec := ih (i + 1) (j + 1) none trivial
      have hw := hrec.1
      have hb := hrec.2
      cases cur with
      | none =>
        refine ⟨⟨?_, ?_⟩, ?_⟩
        · simpa [changeRegions, flushRegion, curDelWidth, delCount, keepCount] using hw.1
        · simpa [changeRegions, flushRegion, curAddWidth, addCount, keepCount] using hw.2
        · intro r hr
          simp only [changeRegions, flushRegion, List.nil_append] at hr
          have := hb r hr
          simp only [delCount, addCount, keepCount]
          omega
      | some r0 =>
        obtain ⟨hbs, hbe, has2, hae⟩ := hinv
        refine ⟨⟨?_, ?_⟩, ?_⟩
        · simp only [changeRegions, flushRegion, regionsDelWidth, List.map_append,
            List.sum_append, List.map_cons, List.sum_cons, List.map_nil, List.sum_nil]
          have := hw.1
          simp only [regionsDelWidth, curDelWidth] at this
          simp only [delCount, keepCount, curDelWidth]
          omega
        · simp only [changeRegions, flushRegion, regionsAddWidth, List.map_append,
            List.sum_append, List.map_cons, List.sum_cons, List.map_nil, List.sum_nil]
          have := hw.2
          simp only [regionsAddWidth, curAddWidth] at this
          simp only [addCount, keepCount, curAddWidth]
          omega
        · intro r hr
          simp only [changeRegions, flushRegion, List.cons_append, List.nil_append,
            List.mem_cons] at hr
          rcases hr with hr | hr
          · subst hr
            simp only [delCount, addCount, keepCount]
            omega
          · have := hb r hr
            simp only [delCount, addCount, keepCount]
            omega
    | del =>
      cases cur with
      | none =>
        have hrec := ih (i + 1) j (some ⟨i, i + 1, j, j⟩)
          ⟨Nat.le_succ i, rfl, Nat.le_refl j, rfl⟩
        refine ⟨⟨?_, ?_⟩, ?_⟩
        · have := hrec.1.1
          simp only [curDelWidth] at this
          simp only [changeRegions, curDelWidth, delCount]
          omega
        · have := hrec.1.2
          simp only [curAddWidth] at this
          simp only [changeRegions, curAddWidth, addCount]
          omega
        · intro r hr
          have := hrec.2 r hr
          simp only [delCount, addCount, keepCount]
          omega
      | some r0 =>
        obtain ⟨hbs, hbe, has2, hae⟩ := hinv
        have hrec := ih (i + 1) j (some ⟨r0.beforeStart, r0.beforeEnd + 1, r0.afterStart, r0.afterEnd⟩)
          ⟨Nat.le_succ_of_le hbs, by rw [hbe], has2, hae⟩
        refine ⟨⟨?_, ?_⟩, ?_⟩
        · have := hrec.1.1
          simp only [curDelWidth] at this
          simp only [changeRegions, curDelWidth, delCount]
          omega
        · have := hrec.1.2
          simp only [curAddWidth] at this
          simp only [changeRegions, curAddWidth, addCount]
          omega
        · intro r hr
          have := hrec.2 r hr
          simp only [delCount, addCount, keepCount]
          omega
    | add =>
      cases cur with
      | none =>
        have hrec := ih i (j + 1) (some ⟨i, i, j, j + 1⟩)
          ⟨Nat.le_refl i, rfl, Nat.le_succ j, rfl⟩
        refine ⟨⟨?_, ?_⟩, ?_⟩
        · have := hrec.1.1
          simp only [curDelWidth] at this
          simp only [changeRegions, curDelWidth, delCount]
          omega
        · have := hrec.1.2
          simp only [curAddWidth] at this
          simp only [changeRegions, curAddWidth, addCount]
          omega
        · intro r hr
          have := hrec.2 r hr
          simp only [delCount, addCount, keepCount]
          omega
      | some r0 =>
        obtain ⟨hbs, hbe, has2, hae⟩ := hinv
        have hrec := ih i (j + 1) (some ⟨r0.beforeStart, r0.beforeEnd, r0.afterStart, r0.afterEnd + 1⟩)
          ⟨hbs, hbe, Nat.le_succ_of_le has2, by rw [hae]⟩
        refine ⟨⟨?_, ?_⟩, ?_⟩
        · have := hrec.1.1
          simp only [curDelWidth] at this
          simp only [changeRegions, curDelWidth, delCount]
          omega
        · have := hrec.1.2
          simp only [curAddWidth] at this
          simp only [changeRegions, curAddWidth, addCount]
          omega
        · intro r hr
          have := hrec.2 r hr
          simp only [delCount, addCount, keepCount]
          omega

/-- Looking the indices of a range up one by one, skipping out-of-bounds
indices, yields the slice between the range bounds. -/
theorem filterMap_getElem_range' (l : List α) :
    ∀ (n s : Nat), (List.range' s n).filterMap (fun i => l[i]?) = (l.drop s).take n := by
  intro n
  induction n with
  | zero => intro s; simp
  | succ n ih =>
    intro s
    rw [List.range'_succ]
    by_cases hs : s < l.length
    · simp only [List.filterMap_cons, List.getElem?_eq_getElem hs]
      rw [ih (s + 1), List.drop_eq_getElem_cons hs, List.take_succ_cons]
    · have hge : l.length ≤ s := by omega
      simp only [List.filterMap_cons, List.getElem?_eq_none hge]
      rw [ih (s + 1), List.drop_eq_nil_of_le hge, List.drop_eq_nil_of_le (by omega)]
      simp

/-- Deletion range lines are all Deletions. -/
theorem rangeLines_deletion_filter (toks : List String) (s e n : Nat) :
    (rangeLines toks s e n LineChangeType.Deletion).filter isDeletionLine =
      rangeLines toks s e n LineChangeType.Deletion ∧
    (rangeLines toks s e n LineChangeType.Deletion).filter isAdditionLine = [] := by
  unfold rangeLines
  constructor
  · rw [List.filter_map]
    simp [Function.comp_def, isDeletionLine]
  · rw [List.filter_map]
    simp [Function.comp_def, isAdditionLine]

/-- Addition range lines are all Additions. -/
theorem rangeLines_addition_filter (toks : List String) (s e n : Nat) :
    (rangeLines toks s e n LineChangeType.Addition).filter isAdditionLine =
      rangeLines toks s e n LineChangeType.Addition ∧
    (rangeLines toks s e n LineChangeType.Addition).filter isDeletionLine = [] := by
  unfold rangeLines
  constructor
  · rw [List.filter_map]
    simp [Function.comp_def, isAdditionLine]
  · rw [List.filter_map]
    simp [Function.comp_def, isDeletionLine]

/-- The number of produced range lines is the length of the slice. -/
theorem rangeLines_length (toks : List String) (s e n : Nat) (kind : LineChangeType) :
    (rangeLines toks s e n kind).length = ((toks.drop s).take (e - s)).length := by
  unfold rangeLines
  rw [filterMap_getElem_range']
  simp

/-- The Deletion lines of the hunk of a region within bounds count exactly
the before width of the region. -/
theorem region_hunk_del_length (before after : List String) (r : Region)
    (h : r.beforeEnd ≤ before.length) :
    ((region_hunk before after r).lines.filter isDeletionLine).length =
      r.beforeEnd - r.beforeStart := by
  unfold region_hunk
  rw [List.filter_append, (rangeLines_deletion_filter before r.beforeStart r.beforeEnd _).1,
    (rangeLines_addition_filter after r.afterStart r.afterEnd _).2, List.append_nil,
    rangeLines_length]
  simp only [List.length_take, List.length_drop]
  omega

/-- The Addition lines of the hunk of a region within bounds count exactly
the after width of the region. -/
theorem region_hunk_add_length (before after : List String) (r : Region)
    (h : r.afterEnd ≤ after.length) :
    ((region_hunk before after r).lines.filter isAdditionLine).length =
      r.afterEnd - r.afterStart := by
  unfold region_hunk
  rw [List.filter_append, (rangeLines_deletion_filter before r.beforeStart r.beforeEnd _).2,
    (rangeLines_addition_filter after r.afterStart r.afterEnd _).1, List.nil_append,
    rangeLines_length]
  simp only [List.length_take, List.length_drop]
  omega

/-- Finishing after folding the regions through the collector appends one
hunk per region in order. -/
theorem foldl_process_change (before after : List String) :
    ∀ (regions : List Region) (st : CollectorState),
      (finish_current_hunk (regions.foldl (process_change before after) st)).hunks =
        (finish_current_hunk st).hunks ++ regions.map (region_hunk before after) := by
  intro regions
  induction regions with
  | nil => intro st; simp
  | cons r rs ih =>
    intro st
    rw [List.foldl_cons, ih]
    have h : (finish_current_hunk (process_change before after st r)).hunks =
        (finish_current_hunk st).hunks ++ [region_hunk before after r] := by
      cases hst : st.current <;>
        simp [finish_current_hunk, process_change, hst]
    rw [h]
    simp

/-- The collector run equals one hunk per region. -/
theorem collector_run_eq_map (before after : List String) (regions : List Region) :
    collector_run before after regions = regions.map (region_hunk before after) := by
  unfold collector_run
  rw [foldl_process_change]
  rfl

/-- Total Deletion lines over the hunks of bounded regions equal the total
before width. -/
theorem total_deletions_map_region_hunk (before after : List String) :
    ∀ (regions : List Region), (∀ r ∈ regions, r.beforeEnd ≤ before.length) →
      total_deletions (regions.map (region_hunk before after)) = regionsDelWidth regions := by
  intro regions
  induction regions with
  | nil => intro _; rfl
  | cons r rs ih =>
    intro hb
    have h1 := region_hunk_del_length before after r (hb r (List.mem_cons_self r rs))
    have h2 := ih (fun r2 hr2 => hb r2 (List.mem_cons_of_mem r hr2))
    simp only [total_deletions, regionsDelWidth, List.map_cons, List.sum_cons] at h2 ⊢
    omega

/-- Total Addition lines over the hunks of bounded regions equal the total
after width. -/
theorem total_additions_map_region_hunk (before after : List String) :
    ∀ (regions : List Region), (∀ r ∈ regions, r.afterEnd ≤ after.length) →
      total_additions (regions.map (region_hunk before after)) = regionsAddWidth regions := by
  intro regions
  induction regions with
  | nil => intro _; rfl
  | cons r rs ih =>
    intro hb
    have h1 := region_hunk_add_length before after r (hb r (List.mem_cons_self r rs))
    have h2 := ih (fun r2 hr2 => hb r2 (List.mem_cons_of_mem r hr2))
    simp only [total_additions, regionsAddWidth, List.map_cons, List.sum_cons] at h2 ⊢
    omega

/-- The Myers branch of generate_hunks spelled out. -/
theorem generate_hunks_myers (a b : Option String) :
    generate_hunks a b Algorithm.Myers =
      collector_run (tokenizeLines (a.getD "")) (tokenizeLines (b.getD ""))
        (changeRegions (diffOps (tokenizeLines (a.getD "")) (tokenizeLines (b.getD "")))
          0 0 none) := rfl

/-- The Myers hunks delete exactly the script del count of old lines and add
exactly the script add count of new lines. -/
theorem generate_hunks_myers_counts (a b : Option String) :
    total_deletions (generate_hunks a b Algorithm.Myers) =
      delCount (diffOps (tokenizeLines (a.getD "")) (tokenizeLines (b.getD ""))) ∧
    total_additions (generate_hunks a b Algorithm.Myers) =
      addCount (diffOps (tokenizeLines (a.getD "")) (tokenizeLines (b.getD ""))) := by
  have hspec := changeRegions_spec
    (diffOps (tokenizeLines (a.getD "")) (tokenizeLines (b.getD ""))) 0 0 none trivial
  have hcons := diffOpsF_consume
    ((tokenizeLines (a.getD "")).length + (tokenizeLines (b.getD "")).length)
    (tokenizeLines (a.getD "")) (tokenizeLines (b.getD "")) (Nat.le_refl _)
  have hboundB : ∀ r ∈ changeRegions
      (diffOps (tokenizeLines (a.getD "")) (tokenizeLines (b.getD ""))) 0 0 none,
      r.beforeEnd ≤ (tokenizeLines (a.getD "")).length := by
    intro r hr
    have h1 := (hspec.2 r hr).1
    have h2 := hcons.1
    simp only [diffOps] at h1
    omega
  have hboundA : ∀ r ∈ changeRegions
      (diffOps (tokenizeLines (a.getD "")) (tokenizeLines (b.getD ""))) 0 0 none,
      r.afterEnd ≤ (tokenizeLines (b.getD "")).length := by
    intro r hr
    have h1 := (hspec.2 r hr).2
    have h2 := hcons.2
    simp only [diffOps] at h1
    omega
  rw [generate_hunks_myers, collector_run_eq_map]
  constructor
  · rw [total_deletions_map_region_hunk _ _ _ hboundB]
    have := hspec.1.1
    simpa [curDelWidth] using this
  · rw [total_additions_map_region_hunk _ _ _ hboundA]
    have := hspec.1.2
    simpa [curAddWidth] using this

/-- C7 amended: for every pair of texts, under the Myers strategy the total
number of Addition lines of the forward diff equals the total number of
Deletion lines of the reversed diff and vice versa; the full structural
mirror (same contents with swapped fields) does not hold in general. -/
theorem c7_count_mirror (a b : Option String) :
    total_additions (generate_hunks a b Algorithm.Myers) =
      total_deletions (generate_hunks b a Algorithm.Myers) ∧
    total_deletions (generate_hunks a b Algorithm.Myers) =
      total_additions (generate_hunks b a Algorithm.Myers) := by
  have h1 := generate_hunks_myers_counts a b
  have h2 := generate_hunks_myers_counts b a
  have hab := diffOpsF_lcs_counts
    ((tokenizeLines (a.getD "")).length + (tokenizeLines (b.getD "")).length)
    (tokenizeLines (a.getD "")) (tokenizeLines (b.getD "")) (Nat.le_refl _)
  have hba := diffOpsF_lcs_counts
    ((tokenizeLines (b.getD "")).length + (tokenizeLines (a.getD "")).length)
    (tokenizeLines (b.getD "")) (tokenizeLines (a.getD "")) (Nat.le_refl _)
  have hcomm := lcsLen_comm
    ((tokenizeLines (a.getD "")).length + (tokenizeLines (b.getD "")).length)
    (tokenizeLines (a.getD "")) (tokenizeLines (b.getD "")) (Nat.le_refl _)
  simp only [diffOps] at h1 h2
  omega

/-- C7 counterexample: for the texts with lines A, B and B, A the forward and
reversed diffs are not mirror images under either strategy: the forward Myers
diff deletes and re-adds the line A while the reversed one deletes and
re-adds the line B, so contents do not correspond. -/
theorem c7_counterexample :
    mirror_hunks (generate_hunks (some "A\nB\n") (some "B\nA\n") Algorithm.Myers)
      (generate_hunks (some "B\nA\n") (some "A\nB\n") Algorithm.Myers) = false ∧
    mirror_hunks (generate_hunks (some "A\nB\n") (some "B\nA\n") Algorithm.Histogram)
      (generate_hunks (some "B\nA\n") (some "A\nB\n") Algorithm.Histogram) = false ∧
    generate_hunks (some "A\nB\n") (some "B\nA\n") Algorithm.Myers =
      [⟨1, 1, 1, 0, [⟨LineChangeType.Deletion, "A", some 1, none⟩]⟩,
       ⟨3, 0, 2, 1, [⟨LineChangeType.Addition, "A", none, some 2⟩]⟩] ∧
    generate_hunks (some "B\nA\n") (some "A\nB\n") Algorithm.Myers =
      [⟨1, 1, 1, 0, [⟨LineChangeType.Deletion, "B", some 1, none⟩]⟩,
       ⟨3, 0, 2, 1, [⟨LineChangeType.Addition, "B", none, some 2⟩]⟩] :=
  ⟨by decide, by decide, rfl, rfl⟩

/-- An ASCII byte decodes to its character and decoding continues. -/
theorem utf8DecodeLossyF_ascii (b : Nat) (hb : b < 0x80) (fuel : Nat) (rest : List Nat) :
    utf8DecodeLossyF (fuel + 1) (b :: rest) = Char.ofNat b :: utf8DecodeLossyF fuel rest := by
  simp only [utf8DecodeLossyF, if_pos hb]

/-- The big blob bytes decode to one x line per replica. -/
theorem utf8_decode_big :
    ∀ (k fuel : Nat), 2 * k ≤ fuel →
      utf8DecodeLossyF fuel ((List.replicate k [120, 10]).flatten) =
        (List.replicate k ['x', '\n']).flatten := by
  intro k
  induction k with
  | zero =>
    intro fuel h
    cases fuel <;> rfl
  | succ k ih =>
    intro fuel h
    rw [List.replicate_succ, List.flatten_cons, List.replicate_succ, List.flatten_cons]
    simp only [List.cons_append, List.nil_append]
    cases fuel with
    | zero => omega
    | succ f =>
      cases f with
      | zero => omega
      | succ f2 =>
        rw [utf8DecodeLossyF_ascii 120 (by norm_num) (f2 + 1),
          utf8DecodeLossyF_ascii 10 (by norm_num) f2, ih f2 (by omega)]

/-- The decoded big text splits into one single-x line per replica. -/
theorem splitLines_big :
    ∀ k, splitLinesAux [] ((List.replicate k ['x', '\n']).flatten) = List.replicate k ['x'] := by
  intro k
  induction k with
  | zero => rfl
  | succ k ih =>
    rw [List.replicate_succ, List.flatten_cons]
    simp only [List.cons_append, List.nil_append]
    rw [show splitLinesAux [] ('x' :: '\n' :: (List.replicate k ['x', '\n']).flatten) =
      ['x'] :: splitLinesAux [] (List.replicate k ['x', '\n']).flatten from rfl]
    rw [ih, List.replicate_succ]

/-- Tokenizing the decoded big text yields one x line per replica. -/
theorem tokenize_big (k : Nat) :
    tokenizeLines (String.mk ((List.replicate k ['x', '\n']).flatten)) =
      List.replicate k "x" := by
  unfold tokenizeLines
  rw [show (String.mk ((List.replicate k ['x', '\n']).flatten)).data =
    (List.replicate k ['x', '\n']).flatten from rfl]
  rw [splitLines_big, List.map_replicate]

/-- Grouping a pure-addition script extends the open region by its length. -/
theorem changeRegions_replicate_add :
    ∀ (k i j : Nat) (r : Region),
      changeRegions (List.replicate k DiffOp.add) i j (some r) =
        [⟨r.beforeStart, r.beforeEnd, r.afterStart, r.afterEnd + k⟩] := by
  intro k
  induction k with
  | zero =>
    intro i j r
    simp [changeRegions, flushRegion]
  | succ k ih =>
    intro i j r
    rw [List.replicate_succ]
    show changeRegions (List.replicate k DiffOp.add) i (j + 1)
      (some ⟨r.beforeStart, r.beforeEnd, r.afterStart, r.afterEnd + 1⟩) = _
    rw [ih]
    have h : r.afterEnd + 1 + k = r.afterEnd + (k + 1) := by omega
    rw [h]

/-- Grouping a non-empty pure-addition script from the origin yields one
region covering the whole after side. -/
theorem changeRegions_all_add_from_none (k : Nat) :
    changeRegions (List.replicate (k + 1) DiffOp.add) 0 0 none = [⟨0, 0, 0, k + 1⟩] := by
  rw [List.replicate_succ]
  show changeRegions (List.replicate k DiffOp.add) 0 1 (some ⟨0, 0, 0, 1⟩) = _
  rw [changeRegions_replicate_add]
  have h : 1 + k = k + 1 := by omega
  rw [h]

/-- The script of an empty old side is all additions. -/
theorem diffOps_nil_cons [DecidableEq α] (y : α) (t : List α) :
    diffOps [] (y :: t) = (y :: t).map (fun _ => DiffOp.add) := rfl

/-- The Myers hunks of a pure addition: one hunk covering every new line. -/
theorem generate_hunks_pure_addition (s y : String) (t : List String)
    (htok : tokenizeLines s = y :: t) :
    generate_hunks none (some s) Algorithm.Myers =
      [region_hunk [] (y :: t) ⟨0, 0, 0, t.length + 1⟩] := by
  unfold generate_hunks
  simp only [Option.getD_none, Option.getD_some]
  rw [show tokenizeLines "" = ([] : List String) from rfl, htok, diffOps_nil_cons,
    List.map_const']
  rw [show (y :: t).length = t.length + 1 from rfl, changeRegions_all_add_from_none,
    collector_run_eq_map]
  rfl

/-- The hunk of a whole-after-side region has one line per new line. -/
theorem region_hunk_pure_add_lines (after : List String) (m : Nat) (hm : m = after.length) :
    ((region_hunk [] after ⟨0, 0, 0, m⟩).lines).length = m := by
  unfold region_hunk
  simp only []
  rw [List.length_append,
    show rangeLines [] 0 0 1 LineChangeType.Deletion = [] from rfl,
    rangeLines_length]
  simp [hm]

/-- The big blob holds 4002 bytes. -/
theorem bigBlobBytes_length : bigBlobBytes.length = 4002 := by
  rw [show bigBlobBytes = (List.replicate 2001 [120, 10]).flatten from rfl]
  rw [List.length_flatten, List.map_replicate, List.sum_replicate, smul_eq_mul]
  rfl

/-- A flattened replica of the two bytes never holds a NUL byte. -/
theorem contains_flatten_replicate_no_nul :
    ∀ k : Nat, ((List.replicate k [120, 10]).flatten).contains 0 = false := by
  intro k
  induction k with
  | zero => rfl
  | succ k ih =>
    rw [List.replicate_succ, List.flatten_cons]
    simp only [List.cons_append, List.nil_append, List.contains_cons, ih]
    rfl

/-- The big blob holds no NUL byte. -/
theorem bigBlobBytes_no_nul : bigBlobBytes.contains 0 = false := by
  rw [show bigBlobBytes = (List.replicate 2001 [120, 10]).flatten from rfl]
  exact contains_flatten_replicate_no_nul 2001

/-- The big blob is not binary. -/
theorem bigBlob_not_binary : is_blob_binary repoC 4 = false := by
  rw [is_blob_binary_some repoC 4 bigBlobBytes rfl, bigBlobBytes_length, bigBlobBytes_no_nul]
  simp [MAX_BLOB_SIZE]

/-- The big blob decodes to the 2001-line x text. -/
theorem bigBlob_decoded : fromUtf8Lossy bigBlobBytes =
    String.mk ((List.replicate 2001 ['x', '\n']).flatten) := by
  unfold fromUtf8Lossy
  rw [bigBlobBytes_length]
  rw [show bigBlobBytes = (List.replicate 2001 [120, 10]).flatten from rfl]
  rw [utf8_decode_big 2001 4002 (by norm_num)]

/-- The big blob content is read successfully. -/
theorem bigBlob_content : get_blob_content repoC 4 =
    Except.ok (some (fromUtf8Lossy bigBlobBytes)) := by
  rw [get_blob_content_some repoC 4 bigBlobBytes rfl]
  rw [bigBlobBytes_length, bigBlobBytes_no_nul]
  simp [MAX_BLOB_SIZE]

/-- The hunks of the record of a non-binary added blob are the generated
hunks of its content. -/
theorem change_record_addition_hunks (repo : RepoModel) (up : Option (String → Bool))
    (path : String) (oid : ObjectId) (hbin : is_blob_binary repo oid = false) :
    (change_record repo up ⟨path, false, ChangeKind.Addition oid⟩).hunks =
      generate_hunks none ((get_blob_content repo oid).toOption.join)
        repo.diffAlgorithm := by
  simp only [change_record]
  simp [hbin]

/-- The single hunk of the big addition carries 2001 lines. -/
theorem bigAdd_hunk_lines :
    ((change_record repoC none bigAddEntry).hunks.map (fun h => h.lines.length)).sum = 2001 := by
  have hbig : (change_record repoC none bigAddEntry).hunks =
      generate_hunks none (some (fromUtf8Lossy bigBlobBytes)) Algorithm.Myers := by
    show (change_record repoC none ⟨"Cargo.lock", false, ChangeKind.Addition 4⟩).hunks = _
    rw [change_record_addition_hunks repoC none "Cargo.lock" 4 bigBlob_not_binary,
      bigBlob_content]
    rfl
  have htok : tokenizeLines (fromUtf8Lossy bigBlobBytes) = "x" :: List.replicate 2000 "x" := by
    rw [bigBlob_decoded, tokenize_big]
    rw [show (2001 : Nat) = 2000 + 1 from rfl, List.replicate_succ]
  rw [hbig, generate_hunks_pure_addition _ _ _ htok, List.map_cons, List.map_nil,
    region_hunk_pure_add_lines _ _ (by simp only [List.length_cons, List.length_replicate])]
  simp only [List.sum_cons, List.sum_nil, List.length_replicate]
  omega

/-- C2 counterexample: an addition of 2001 lines at the path Cargo.lock makes
both exclusion conditions hold (the policy matches and the changed-line count
2001 exceeds the 2000 ceiling), yet the single recorded reason is the policy
reason lock/generated file, which does not contain the literal count 2001 —
the changed-line-ceiling reason does not take precedence. -/
theorem c2_counterexample :
    should_exclude_file none "Cargo.lock" = true ∧
    (extract_changes repoC none [bigAddEntry]).map
      (fun fc => (fc.exclusion_reason, (fc.hunks.map (fun h => h.lines.length)).sum)) =
      [(some "lock/generated file", 2001)] ∧
    MAX_CHANGE_LINES < 2001 ∧
    containsSubstr "lock/generated file" "2001" = false := by
  refine ⟨by decide, ?_, by decide, by decide⟩
  have hrec : extract_changes repoC none [bigAddEntry] =
      [change_record repoC none bigAddEntry] := rfl
  have hreason := ((change_record_fields repoC none bigAddEntry).2.2.2 (by decide)).2
  rw [hrec, List.map_cons, List.map_nil, hreason, bigAdd_hunk_lines]
